import Mathlib

/-!
Shallow embedding of the memory-audit engine (src/audit.py) and proofs about it.

Python strings are modelled as lists of code points (`PyStr := List Nat`).
Filesystem interaction (directory enumeration, file existence, file reading)
is abstracted into explicit parameters: the enumeration result of
`sorted(root.rglob("*.md"))` is passed as a list, the existence of the
well-known `MEMORY.md` as a Bool, and reading a file as a partial map
`PyStr → Option PyStr` where `none` models a read/decode failure
(the `except` branch of `read_files`).  Line/file locations, which the
source renders as the string `f"{fn}:{i}"`, are modelled as the pair
`(fn, i)` (the rendering is injective, so nothing is lost).
-/

/-- A Python string: a sequence of Unicode code points. -/
abbrev PyStr := List Nat

/-- Code points of a Lean string literal, used to write concrete `PyStr`s. -/
def strLit (s : String) : PyStr := s.data.map Char.toNat

/-- Python's `\s` on the code points that can occur inside a single line
(space, tab, LF, VT, FF, CR). -/
def isPySpace (c : Nat) : Bool :=
  c = 32 || c = 9 || c = 10 || c = 11 || c = 12 || c = 13

/-- Python `str.lower` on one code point (ASCII letters; other code points
in the corpus are unaffected). -/
def pyLower (c : Nat) : Nat := if 65 ≤ c ∧ c ≤ 90 then c + 32 else c

/-- Python `str.strip()`: drop leading and trailing whitespace. -/
def pyStrip (l : PyStr) : PyStr :=
  ((l.dropWhile isPySpace).reverse.dropWhile isPySpace).reverse

/-- Python `re.sub(r"\s+", " ", ·)`: replace each maximal whitespace run by one
space.  The Bool flag records whether the previous kept char closed a
whitespace run. -/
def collapseWS : Bool → PyStr → PyStr
  | _, [] => []
  | prevSpace, c :: rest =>
    if isPySpace c then
      if prevSpace then collapseWS true rest
      else 32 :: collapseWS true rest
    else c :: collapseWS false rest

/-- The source's `normalize_line(line) = re.sub(r"\s+", " ", line.strip().lower())`. -/
def normalize_line (line : PyStr) : PyStr :=
  collapseWS false ((pyStrip line).map pyLower)

/-- Python `str.splitlines()` restricted to `\n` (code point 10) line
terminators: split on `\n`, dropping the trailing empty piece a final
newline would produce, and `[]` on the empty string. -/
def splitlines (s : PyStr) : List PyStr :=
  match s with
  | [] => []
  | _ =>
    let parts := s.splitOn 10
    if s.getLast? = some 10 then parts.dropLast else parts

/-- Python `enumerate(xs, k)`. -/
def pyEnumerate : Nat → List PyStr → List (Nat × PyStr)
  | _, [] => []
  | k, a :: as => (k, a) :: pyEnumerate (k + 1) as

/-- A `file:line` location (the source formats it as `f"{fn}:{i}"`). -/
structure Loc where
  file : PyStr
  line : Nat
deriving DecidableEq, Repr

/-- One element of the `duplicates` list built by `scan`. -/
structure DuplicateFinding where
  line : PyStr
  first : Loc
  second : Loc
deriving DecidableEq, Repr

/-- One element of the `stale` list built by `scan`. -/
structure StaleFinding where
  file : PyStr
  line : Nat
  text : PyStr
deriving DecidableEq, Repr

/-- One element of the `contradictions` list built by `scan`. -/
structure ContradictionHint where
  file : PyStr
  hint : PyStr
deriving DecidableEq, Repr

/-- The mutable state of `scan`'s first pass: the `line_index` dict
(an insertion-ordered association list, as Python dicts are) and the
`duplicates` / `stale` accumulators. -/
structure ScanState where
  index : List (PyStr × Loc)
  duplicates : List DuplicateFinding
  stale : List StaleFinding
deriving Repr

/-- Python dict lookup on the association-list model. -/
def dictGet (k : PyStr) : List (PyStr × Loc) → Option Loc
  | [] => none
  | (k', v) :: rest => if k' = k then some v else dictGet k rest

/-- Whether `needle` is an initial segment of `hay`. -/
def startsWithStr : PyStr → PyStr → Bool
  | [], _ => true
  | _ :: _, [] => false
  | a :: as, b :: bs => a = b && startsWithStr as bs

/-- Python's substring test `needle in hay` (contiguous occurrence). -/
def substrOf : PyStr → PyStr → Bool
  | needle, [] => needle.isEmpty
  | needle, c :: rest => startsWithStr needle (c :: rest) || substrOf needle rest

/-- The stale-marker keyword list `["todo", "later", "tbd", "fixme"]`. -/
def staleKeywords : List PyStr :=
  [strLit "todo", strLit "later", strLit "tbd", strLit "fixme"]

/-- The body of `scan`'s first-pass inner loop for one raw line. -/
def scanLine (fn : PyStr) (i : Nat) (raw : PyStr) (st : ScanState) : ScanState :=
  let line := normalize_line raw
  if line.length < 15 then st
  else
    let st1 :=
      match dictGet line st.index with
      | some first =>
          { st with duplicates :=
              st.duplicates ++ [⟨line, first, ⟨fn, i⟩⟩] }
      | none => { st with index := st.index ++ [(line, ⟨fn, i⟩)] }
    if staleKeywords.any (fun k => substrOf k line) then
      { st1 with stale := st1.stale ++ [⟨fn, i, pyStrip raw⟩] }
    else st1

/-- The first-pass loop of `scan` over one document. -/
def scanDoc (fn txt : PyStr) (st : ScanState) : ScanState :=
  (pyEnumerate 1 (splitlines txt)).foldl (fun s p => scanLine fn p.1 p.2 s) st

/-- The whole first pass of `scan` over the corpus. -/
def scanPass1 (files : List (PyStr × PyStr)) : ScanState :=
  files.foldl (fun st f => scanDoc f.1 f.2 st) ⟨[], [], []⟩

/-- The hint string the source attaches to every contradiction. -/
def contraHint : PyStr := strLit "contains both 'always' and 'never' statements"

/-- The second pass of `scan`: one `ContradictionHint` per document whose
qualifying lines (normalized length STRICTLY greater than 15) contain
both "always" and "never". -/
def contraPass (files : List (PyStr × PyStr)) : List ContradictionHint :=
  files.filterMap (fun f =>
    let lines := ((splitlines f.2).filter
        (fun x => 15 < (normalize_line x).length)).map normalize_line
    let hasAlways := lines.any (fun l => substrOf (strLit "always") l)
    let hasNever := lines.any (fun l => substrOf (strLit "never") l)
    if hasAlways && hasNever then some ⟨f.1, contraHint⟩ else none)

/-- The source's `scan(files)`: returns `(duplicates, stale, contradictions)`. -/
def scan (files : List (PyStr × PyStr)) :
    List DuplicateFinding × List StaleFinding × List ContradictionHint :=
  let st := scanPass1 files
  (st.duplicates, st.stale, contraPass files)

/-- The source's `weights` dict: each key may be absent (`Option`); values are
Python ints. -/
structure Weights where
  duplicate : Option Int
  stale : Option Int
  contradiction : Option Int

/-- The source's `calc_score`: `max(0, 100 - (dups*w_d + stale*w_s + contra*w_c))`
with `dict.get` defaults 2 / 1 / 5. -/
def calc_score (dups stale contra : Nat) (weights : Weights) : Int :=
  let s : Int := 100 - ((dups : Int) * weights.duplicate.getD 2
      + (stale : Int) * weights.stale.getD 1
      + (contra : Int) * weights.contradiction.getD 5)
  max 0 s

/-- Python `fnmatch.fnmatch` glob matching against the whole path string, for the
`*` (42) and `?` (63) metacharacters and literal code points (the corpus
ignore patterns use no bracket classes). -/
def globMatch : PyStr → PyStr → Bool
  | [], [] => true
  | [], _ :: _ => false
  | c :: p', s =>
    if c = 42 then
      globMatch p' s ||
        (match s with
         | [] => false
         | _ :: s' => globMatch (c :: p') s')
    else
      match s with
      | [] => false
      | d :: s' => (decide (c = d) || decide (c = 63)) && globMatch p' s'
termination_by p s => (p.length, s.length)

/-- The source's `should_ignore(path, patterns) = any(fnmatch(path, pat) for pat in patterns)`. -/
def should_ignore (path : PyStr) (patterns : List PyStr) : Bool :=
  patterns.any (fun pat => globMatch pat path)

/-- The well-known top-level file name. -/
def memoryMdName : PyStr := strLit "MEMORY.md"

/-- The source's `collect_files`, with the filesystem abstracted: `mdFiles` is the
result of `sorted(root.rglob("*.md"))` rendered as path strings (empty
when the root directory does not exist), and `memoryExists` is whether
`Path("MEMORY.md").exists()`.  Mirrors the source: filter the enumerated
files by the ignore patterns, then append `MEMORY.md` when the include
flag is set, it exists, and it is not ignored. -/
def collect_files (mdFiles : List PyStr) (memoryExists : Bool)
    (include_memory_md : Bool) (ignore_patterns : List PyStr) : List PyStr :=
  let out := mdFiles.filter (fun rel => !should_ignore rel ignore_patterns)
  if include_memory_md && memoryExists
      && !should_ignore memoryMdName ignore_patterns then
    out ++ [memoryMdName]
  else out

/-- The source's `read_files`, with `p.read_text()` abstracted as `fs p`: `none` models
the raised exception (unreadable / undecodable file), which the source
catches and replaces by the empty string. -/
def read_files (fs : PyStr → Option PyStr) (paths : List PyStr) :
    List (PyStr × PyStr) :=
  paths.map (fun p => (p, (fs p).getD []))

/-- The source's `remediation(dups, stale, contra)`. -/
def remediation (dups : List DuplicateFinding) (stale : List StaleFinding)
    (contra : List ContradictionHint) : List PyStr :=
  let rec1 := if !dups.isEmpty then
      [strLit "Merge or delete duplicate lines; keep one canonical statement per fact."]
    else []
  let rec2 := if !stale.isEmpty then
      [strLit "Resolve TODO/TBD/FIXME entries or move them to task tracking."]
    else []
  let rec3 := if !contra.isEmpty then
      [strLit "Review always/never absolute statements and replace with scoped conditions."]
    else []
  let recs := rec1 ++ rec2 ++ rec3
  if recs.isEmpty then
    [strLit "No immediate remediation needed. Maintain current hygiene."]
  else recs

/-- The report record `run_audit` assembles (the timestamp and the on-disk
report files are I/O and stay outside the model). -/
structure AuditResult where
  scanned_files : List PyStr
  score : Int
  threshold : Int
  weights : Weights
  duplicates : List DuplicateFinding
  stale_candidates : List StaleFinding
  contradiction_hints : List ContradictionHint
  remediationList : List PyStr

/-- The source's `run_audit`, engine part: the configuration is already resolved
(weights, ignore patterns, threshold, strict flag, include flag), the
filesystem is abstracted as in `collect_files` / `read_files`.  Returns
the assembled record and the process exit code: 3 on strict-mode
threshold failure, 0 otherwise. -/
def run_audit (mdFiles : List PyStr) (memoryExists : Bool) (fs : PyStr → Option PyStr)
    (weights : Weights) (ignore_patterns : List PyStr) (threshold : Int)
    (include_memory_md : Bool) (strict : Bool) : AuditResult × Nat :=
  let paths := collect_files mdFiles memoryExists include_memory_md ignore_patterns
  let files := read_files fs paths
  let res := scan files
  let score := calc_score res.1.length res.2.1.length res.2.2.length weights
  let recs := remediation res.1 res.2.1 res.2.2
  let data : AuditResult :=
    { scanned_files := files.map Prod.fst
      score := score
      threshold := threshold
      weights := weights
      duplicates := res.1
      stale_candidates := res.2.1
      contradiction_hints := res.2.2
      remediationList := recs }
  (data, if strict && decide (score < threshold) then 3 else 0)

/-! ## Scorer (claims C1, C9) -/

/-- C1: for every triple of finding counts and non-negative weights,
`calc_score` lies in [0, 100]; it is exactly 100 when all counts are 0
for arbitrary weights; and a deduction of at least 100 is clamped to 0. -/
theorem calc_score_bounded :
    (∀ d s c (w : Weights),
        0 ≤ w.duplicate.getD 2 → 0 ≤ w.stale.getD 1 → 0 ≤ w.contradiction.getD 5 →
        0 ≤ calc_score d s c w ∧ calc_score d s c w ≤ 100) ∧
    (∀ w : Weights, calc_score 0 0 0 w = 100) ∧
    (∀ (d s c : Nat) (w : Weights),
        100 ≤ (d : Int) * w.duplicate.getD 2 + (s : Int) * w.stale.getD 1
            + (c : Int) * w.contradiction.getD 5 →
        calc_score d s c w = 0) := by
  refine ⟨?_, ?_, ?_⟩
  · intro d s c w hd hs hc
    have h1 : 0 ≤ (d : Int) * w.duplicate.getD 2 := mul_nonneg (Int.natCast_nonneg d) hd
    have h2 : 0 ≤ (s : Int) * w.stale.getD 1 := mul_nonneg (Int.natCast_nonneg s) hs
    have h3 : 0 ≤ (c : Int) * w.contradiction.getD 5 := mul_nonneg (Int.natCast_nonneg c) hc
    unfold calc_score
    refine ⟨le_max_left _ _, max_le (by norm_num) (by linarith)⟩
  · intro w
    simp [calc_score]
  · intro d s c w h
    unfold calc_score
    exact max_eq_left (by linarith)

/-- Witness for `calc_score_bounded` at concrete inputs. -/
theorem calc_score_bounded_witness :
    (0 ≤ calc_score 7 3 1 ⟨some 3, none, some 0⟩ ∧
      calc_score 7 3 1 ⟨some 3, none, some 0⟩ ≤ 100) ∧
    calc_score 60 0 0 ⟨some 2, some 1, some 5⟩ = 0 :=
  ⟨calc_score_bounded.1 7 3 1 ⟨some 3, none, some 0⟩
      (by decide) (by decide) (by decide),
    calc_score_bounded.2.2 60 0 0 ⟨some 2, some 1, some 5⟩ (by decide)⟩

/-- C9: calc_score is insensitive to whether a weight key is absent or
set to its documented default (2 for duplicate, 1 for stale, 5 for
contradiction); in particular it is total on partial weight records. -/
theorem calc_score_partial_weights_defaults :
    (∀ d s c ws wc, calc_score d s c ⟨none, ws, wc⟩ = calc_score d s c ⟨some 2, ws, wc⟩) ∧
    (∀ d s c wd wc, calc_score d s c ⟨wd, none, wc⟩ = calc_score d s c ⟨wd, some 1, wc⟩) ∧
    (∀ d s c wd ws, calc_score d s c ⟨wd, ws, none⟩ = calc_score d s c ⟨wd, ws, some 5⟩) :=
  ⟨fun _ _ _ _ _ => rfl, fun _ _ _ _ _ => rfl, fun _ _ _ _ _ => rfl⟩

/-! ## Orchestrator exit signal (claim C3) -/

/-- C3: the audit run signals failure (exit code 3) iff strict mode is on
and the computed score is strictly below the threshold; in every other
case it signals success (exit code 0). -/
theorem run_audit_strict_fail_iff :
    ∀ mdFiles memoryExists fs w ip t imd strict,
      ((run_audit mdFiles memoryExists fs w ip t imd strict).2 = 3 ↔
        (strict = true ∧ (run_audit mdFiles memoryExists fs w ip t imd strict).1.score < t)) ∧
      ((run_audit mdFiles memoryExists fs w ip t imd strict).2 = 0 ↔
        ¬(strict = true ∧ (run_audit mdFiles memoryExists fs w ip t imd strict).1.score < t)) := by
  intro mdFiles memoryExists fs w ip t imd strict
  cases strict <;>
    simp only [run_audit, Bool.false_and, Bool.true_and] <;>
    by_cases h :
      calc_score (scan (read_files fs (collect_files mdFiles memoryExists imd ip))).1.length
        (scan (read_files fs (collect_files mdFiles memoryExists imd ip))).2.1.length
        (scan (read_files fs (collect_files mdFiles memoryExists imd ip))).2.2.length w < t <;>
    simp [h]

/-! ## File reading (claim C6) -/

/-- C6: read_files yields one `(identifier, text)` pair per input path
(in order); a path whose read fails (`fs p = none`) contributes the
empty text rather than an error, so the remaining files are unaffected.
Totality itself is inherent: `read_files` is a total function. -/
theorem read_files_never_fails :
    ∀ (fs : PyStr → Option PyStr) (paths : List PyStr),
      (read_files fs paths).length = paths.length ∧
      (∀ pr ∈ read_files fs paths, pr.1 ∈ paths ∧ pr.2 = (fs pr.1).getD []) ∧
      (∀ p ∈ paths, fs p = none → (p, ([] : PyStr)) ∈ read_files fs paths) := by
  intro fs paths
  refine ⟨by simp [read_files], ?_, ?_⟩
  · intro pr hpr
    simp only [read_files, List.mem_map] at hpr
    obtain ⟨p, hp, rfl⟩ := hpr
    exact ⟨hp, rfl⟩
  · intro p hp hnone
    simp only [read_files, List.mem_map]
    exact ⟨p, hp, by simp [hnone]⟩

/-- Witness for `read_files_never_fails` at a concrete failing read. -/
theorem read_files_never_fails_witness :
    (strLit "bad.md", ([] : PyStr)) ∈
      read_files (fun _ => none) [strLit "bad.md"] :=
  (read_files_never_fails (fun _ => none) [strLit "bad.md"]).2.2
    (strLit "bad.md") (by simp) rfl

/-! ## File collection (claim C5) -/

/-- C5 counterexample: when the root-directory enumeration itself lists
`MEMORY.md` (e.g. the root is the invocation directory), the include
flag is set and nothing is ignored, `collect_files` appends `MEMORY.md`
a second time: the returned sequence is not deduplicated. -/
theorem collect_files_memory_twice :
    (collect_files [memoryMdName] true true []).count memoryMdName = 2 ∧
    ¬ (collect_files [memoryMdName] true true []).Nodup := by
  constructor
  · rfl
  · decide

/-- C5 amended: the output contains no identifier twice provided the
directory enumeration is itself duplicate-free and does not already
contain the well-known file `MEMORY.md` (the source appends `MEMORY.md`
without checking for its presence, so this proviso is necessary). -/
theorem collect_files_nodup_amended
    (mdFiles : List PyStr) (memoryExists include_memory_md : Bool)
    (ignore_patterns : List PyStr)
    (hnd : mdFiles.Nodup) (hmem : memoryMdName ∉ mdFiles) :
    (collect_files mdFiles memoryExists include_memory_md ignore_patterns).Nodup := by
  unfold collect_files
  have h1 : (mdFiles.filter
      (fun rel => !should_ignore rel ignore_patterns)).Nodup := hnd.filter _
  split
  · refine List.Nodup.append h1 (by simp) ?_
    intro x hx hx'
    simp only [List.mem_singleton] at hx'
    subst hx'
    exact hmem (List.mem_of_mem_filter hx)
  · exact h1

/-- Witness for `collect_files_nodup_amended` at a concrete corpus. -/
theorem collect_files_nodup_amended_witness :
    (collect_files [strLit "memory/a.md", strLit "memory/b.md"] true true []).Nodup :=
  collect_files_nodup_amended [strLit "memory/a.md", strLit "memory/b.md"]
    true true [] (by decide) (by decide)

/-! ## Normalizer (claim C8): helper lemmas -/

/-- Characterization of strings `collapseWS b` leaves unchanged: every
whitespace char is a single space (32) not preceded by a pending run. -/
def isCollapsed : Bool → PyStr → Bool
  | _, [] => true
  | b, c :: rest =>
    if isPySpace c then decide (c = 32) && !b && isCollapsed true rest
    else isCollapsed false rest

theorem isCollapsed_collapseWS (l : PyStr) : ∀ b, isCollapsed b (collapseWS b l) = true := by
  induction l with
  | nil => intro b; rfl
  | cons c rest ih =>
    intro b
    by_cases h : isPySpace c
    · cases b
      · simpa [collapseWS, h, isCollapsed] using ih true
      · simpa [collapseWS, h] using ih true
    · simpa [collapseWS, h, isCollapsed] using ih false

theorem collapseWS_eq_self (l : PyStr) : ∀ b, isCollapsed b l = true → collapseWS b l = l := by
  induction l with
  | nil => intro b _; rfl
  | cons c rest ih =>
    intro b hb
    by_cases h : isPySpace c
    · simp only [isCollapsed, h, if_true, Bool.and_eq_true, Bool.not_eq_true',
        decide_eq_true_eq] at hb
      obtain ⟨⟨hc32, hbf⟩, hrest⟩ := hb
      subst hc32; subst hbf
      simp [collapseWS, h, ih true hrest]
    · simp only [isCollapsed, h, if_false] at hb
      simp [collapseWS, h, ih false hb]

theorem mem_collapseWS (l : PyStr) :
    ∀ b c, c ∈ collapseWS b l → c = 32 ∨ (c ∈ l ∧ isPySpace c = false) := by
  induction l with
  | nil => intro b c h; simp [collapseWS] at h
  | cons a rest ih =>
    intro b c h
    by_cases ha : isPySpace a
    · cases b
      · rw [show collapseWS false (a :: rest) = 32 :: collapseWS true rest by
            simp [collapseWS, ha]] at h
        rcases List.mem_cons.mp h with hc | h
        · exact Or.inl hc
        · rcases ih true c h with h32 | ⟨hm, hn⟩
          · exact Or.inl h32
          · exact Or.inr ⟨List.mem_cons_of_mem _ hm, hn⟩
      · have h' : c ∈ collapseWS true rest := by
          rwa [show collapseWS true (a :: rest) = collapseWS true rest by
            simp [collapseWS, ha]] at h
        rcases ih true c h' with h32 | ⟨hm, hn⟩
        · exact Or.inl h32
        · exact Or.inr ⟨List.mem_cons_of_mem _ hm, hn⟩
    · rw [show collapseWS b (a :: rest) = a :: collapseWS false rest by
          simp [collapseWS, ha]] at h
      rcases List.mem_cons.mp h with hc | h
      · subst hc
        exact Or.inr ⟨List.mem_cons_self _ _, by simpa using ha⟩
      · rcases ih false c h with h32 | ⟨hm, hn⟩
        · exact Or.inl h32
        · exact Or.inr ⟨List.mem_cons_of_mem _ hm, hn⟩

theorem pyLower_idem (c : Nat) : pyLower (pyLower c) = pyLower c := by
  by_cases h : 65 ≤ c ∧ c ≤ 90
  · have h1 : pyLower c = c + 32 := by simp [pyLower, h]
    have hno : ¬(65 ≤ c + 32 ∧ c + 32 ≤ 90) := by omega
    have h2 : pyLower (c + 32) = c + 32 := by unfold pyLower; exact if_neg hno
    rw [h1, h2]
  · have h1 : pyLower c = c := by simp [pyLower, h]
    rw [h1, h1]

theorem isPySpace_pyLower (c : Nat) : isPySpace (pyLower c) = isPySpace c := by
  by_cases h : 65 ≤ c ∧ c ≤ 90
  · have h1 : isPySpace (c + 32) = false := by
      simp only [isPySpace, Bool.or_eq_false_iff, decide_eq_false_iff_not]
      omega
    have h2 : isPySpace c = false := by
      simp only [isPySpace, Bool.or_eq_false_iff, decide_eq_false_iff_not]
      omega
    have hl : pyLower c = c + 32 := by simp [pyLower, h]
    rw [hl, h1, h2]
  · have hl : pyLower c = c := by simp [pyLower, h]
    rw [hl]

theorem head?_dropWhile_false {p : Nat → Bool} :
    ∀ (l : PyStr) (c : Nat), (l.dropWhile p).head? = some c → p c = false := by
  intro l
  induction l with
  | nil => intro c h; simp [List.dropWhile] at h
  | cons a rest ih =>
    intro c h
    by_cases ha : p a
    · exact ih c (by simpa [List.dropWhile, ha] using h)
    · simp only [List.dropWhile, ha, if_false, List.head?_cons, Option.some.injEq] at h
      subst h
      simpa using ha

theorem dropWhile_eq_self_of_head {p : Nat → Bool} (l : PyStr)
    (h : ∀ c, l.head? = some c → p c = false) : l.dropWhile p = l := by
  cases l with
  | nil => rfl
  | cons a rest => simp [List.dropWhile, h a rfl]

theorem getLast?_cons_ne (d : Nat) (x : PyStr) (hx : x ≠ []) :
    (d :: x).getLast? = x.getLast? := by
  cases x with
  | nil => exact absurd rfl hx
  | cons y ys => exact List.getLast?_cons_cons ..

theorem ne_nil_of_getLast? {x : PyStr} {c : Nat} (h : x.getLast? = some c) : x ≠ [] := by
  intro hn; subst hn; simp at h

theorem getLast?_dropWhile {p : Nat → Bool} :
    ∀ (z : PyStr) (c : Nat), (z.dropWhile p).getLast? = some c → z.getLast? = some c := by
  intro z
  induction z with
  | nil => intro c h; simp [List.dropWhile] at h
  | cons a z' ih =>
    intro c h
    by_cases ha : p a
    · rw [List.dropWhile_cons_of_pos ha] at h
      have h' := ih c h
      rw [getLast?_cons_ne a z' (ne_nil_of_getLast? h')]
      exact h'
    · rwa [List.dropWhile_cons_of_neg ha] at h

theorem head?_pyStrip (m : PyStr) (c : Nat) (h : (pyStrip m).head? = some c) :
    isPySpace c = false := by
  unfold pyStrip at h
  rw [List.head?_reverse] at h
  have h' := getLast?_dropWhile _ c h
  rw [List.getLast?_reverse] at h'
  exact head?_dropWhile_false _ c h'

theorem getLast?_pyStrip (m : PyStr) (c : Nat) (h : (pyStrip m).getLast? = some c) :
    isPySpace c = false := by
  unfold pyStrip at h
  rw [List.getLast?_reverse] at h
  exact head?_dropWhile_false _ c h

theorem getLast?_collapseWS (l : PyStr) :
    ∀ b c, l.getLast? = some c → isPySpace c = false →
      (collapseWS b l).getLast? = some c := by
  induction l with
  | nil => intro b c h _; simp at h
  | cons a rest ih =>
    intro b c h hc
    cases rest with
    | nil =>
      simp only [List.getLast?_singleton, Option.some.injEq] at h
      subst h
      simp [collapseWS, hc, List.getLast?_singleton]
    | cons a2 rest2 =>
      rw [List.getLast?_cons_cons] at h
      by_cases ha : isPySpace a
      · cases b
        · have h' := ih true c h hc
          rw [show collapseWS false (a :: a2 :: rest2) =
              32 :: collapseWS true (a2 :: rest2) by simp [collapseWS, ha]]
          rw [getLast?_cons_ne _ _ (ne_nil_of_getLast? h')]
          exact h'
        · have h' := ih true c h hc
          rw [show collapseWS true (a :: a2 :: rest2) =
              collapseWS true (a2 :: rest2) by simp [collapseWS, ha]]
          exact h'
      · have h' := ih false c h hc
        rw [show collapseWS b (a :: a2 :: rest2) =
            a :: collapseWS false (a2 :: rest2) by simp [collapseWS, ha]]
        rw [getLast?_cons_ne _ _ (ne_nil_of_getLast? h')]
        exact h'

theorem map_pyLower_eq_self (l : PyStr) (h : ∀ c ∈ l, pyLower c = c) :
    l.map pyLower = l := by
  induction l with
  | nil => rfl
  | cons a t ih =>
    simp only [List.map_cons, h a (List.mem_cons_self _ _), List.cons.injEq, true_and]
    exact ih (fun c hc => h c (List.mem_cons_of_mem _ hc))

theorem head?_collapseWS (l : PyStr) (b : Bool) (c : Nat)
    (h : l.head? = some c) (hc : isPySpace c = false) :
    (collapseWS b l).head? = some c := by
  cases l with
  | nil => simp at h
  | cons a rest =>
    obtain rfl : a = c := by simpa using h
    rw [show collapseWS b (a :: rest) = a :: collapseWS false rest by
      simp [collapseWS, hc]]
    rfl

/-- C8: normalize_line is idempotent — normalizing an already-normalized
line returns it unchanged. -/
theorem normalize_line_idempotent :
    ∀ s : PyStr, normalize_line (normalize_line s) = normalize_line s := by
  intro s
  set x := (pyStrip s).map pyLower with hx
  show normalize_line (collapseWS false x) = collapseWS false x
  set g := collapseWS false x with hgdef
  have hlow : ∀ c ∈ g, pyLower c = c := by
    intro c hcg
    rcases mem_collapseWS x false c (by rwa [hgdef] at hcg) with h32 | ⟨hm, _⟩
    · rw [h32]; decide
    · rcases List.mem_map.mp (by rwa [hx] at hm) with ⟨d, _, rfl⟩
      exact pyLower_idem d
  have hhead : ∀ c, g.head? = some c → isPySpace c = false := by
    intro c hcg
    cases hx' : x with
    | nil => rw [hgdef, hx'] at hcg; simp [collapseWS] at hcg
    | cons a x' =>
      have ha : isPySpace a = false := by
        have hxa : x.head? = some a := by rw [hx']; rfl
        rw [hx, List.head?_map] at hxa
        cases hps : (pyStrip s).head? with
        | none => rw [hps] at hxa; simp at hxa
        | some a0 =>
          rw [hps] at hxa
          obtain rfl : pyLower a0 = a := by simpa using hxa
          rw [isPySpace_pyLower]
          exact head?_pyStrip s a0 hps
      have hga : g.head? = some a := by
        rw [hgdef, hx']
        exact head?_collapseWS _ false a rfl ha
      rw [hga] at hcg
      obtain rfl : a = c := by simpa using hcg
      exact ha
  have hlast : ∀ c, g.getLast? = some c → isPySpace c = false := by
    intro c hcg
    cases hxl : x.getLast? with
    | none =>
      have hx0 : x = [] := List.getLast?_eq_none_iff.mp hxl
      rw [hgdef, hx0] at hcg
      simp [collapseWS] at hcg
    | some a =>
      have ha : isPySpace a = false := by
        rw [hx, List.getLast?_map] at hxl
        cases hps : (pyStrip s).getLast? with
        | none => rw [hps] at hxl; simp at hxl
        | some a0 =>
          rw [hps] at hxl
          obtain rfl : pyLower a0 = a := by simpa using hxl
          rw [isPySpace_pyLower]
          exact getLast?_pyStrip s a0 hps
      have hga : g.getLast? = some a := by
        rw [hgdef]
        exact getLast?_collapseWS x false a hxl ha
      rw [hga] at hcg
      obtain rfl : a = c := by simpa using hcg
      exact ha
  have hstrip : pyStrip g = g := by
    unfold pyStrip
    rw [dropWhile_eq_self_of_head g hhead]
    rw [dropWhile_eq_self_of_head g.reverse
      (fun c hc => hlast c (by rwa [List.head?_reverse] at hc))]
    exact List.reverse_reverse g
  have hmap : g.map pyLower = g := map_pyLower_eq_self g hlow
  have hcoll : collapseWS false g = g :=
    collapseWS_eq_self g false (by rw [hgdef]; exact isCollapsed_collapseWS x false)
  show collapseWS false ((pyStrip g).map pyLower) = g
  rw [hstrip, hmap, hcoll]

/-! ## Scanner first pass as a fold over the entry stream -/

/-- The list of `(fn, i, raw)` triples a document feeds to the first-pass loop. -/
def docEntries (fn txt : PyStr) : List (PyStr × Nat × PyStr) :=
  (pyEnumerate 1 (splitlines txt)).map (fun p => (fn, p.1, p.2))

/-- The whole corpus's entry stream, in processing order. -/
def corpusEntries : List (PyStr × PyStr) → List (PyStr × Nat × PyStr)
  | [] => []
  | f :: rest => docEntries f.1 f.2 ++ corpusEntries rest

/-- The step function `scanLine` uncurried over one entry. -/
def scanEntry (st : ScanState) (e : PyStr × Nat × PyStr) : ScanState :=
  scanLine e.1 e.2.1 e.2.2 st

theorem scanDoc_eq_foldl (fn txt : PyStr) (st : ScanState) :
    scanDoc fn txt st = (docEntries fn txt).foldl scanEntry st := by
  unfold scanDoc docEntries
  rw [List.foldl_map]
  rfl

theorem scanPass1_eq_foldl :
    ∀ (files : List (PyStr × PyStr)) (st : ScanState),
      files.foldl (fun st f => scanDoc f.1 f.2 st) st =
        (corpusEntries files).foldl scanEntry st := by
  intro files
  induction files with
  | nil => intro st; rfl
  | cons f rest ih =>
    intro st
    rw [List.foldl_cons, corpusEntries, List.foldl_append, ← scanDoc_eq_foldl]
    exact ih _

theorem scanPass1_eq (files : List (PyStr × PyStr)) :
    scanPass1 files = (corpusEntries files).foldl scanEntry ⟨[], [], []⟩ :=
  scanPass1_eq_foldl files _

/-! Componentwise behaviour of one `scanLine` step. -/

theorem scanLine_index (fn : PyStr) (i : Nat) (raw : PyStr) (st : ScanState) :
    (scanLine fn i raw st).index =
      if (normalize_line raw).length < 15 then st.index
      else
        match dictGet (normalize_line raw) st.index with
        | some _ => st.index
        | none => st.index ++ [(normalize_line raw, ⟨fn, i⟩)] := by
  by_cases h : (normalize_line raw).length < 15
  · simp [scanLine, h]
  · cases hd : dictGet (normalize_line raw) st.index with
    | some f0 =>
      by_cases hs : (staleKeywords.any fun kw => substrOf kw (normalize_line raw)) = true
      · simp [scanLine, h, hd, hs]
      · simp [scanLine, h, hd, hs]
    | none =>
      by_cases hs : (staleKeywords.any fun kw => substrOf kw (normalize_line raw)) = true
      · simp [scanLine, h, hd, hs]
      · simp [scanLine, h, hd, hs]

theorem scanLine_duplicates (fn : PyStr) (i : Nat) (raw : PyStr) (st : ScanState) :
    (scanLine fn i raw st).duplicates =
      if (normalize_line raw).length < 15 then st.duplicates
      else
        match dictGet (normalize_line raw) st.index with
        | some f0 => st.duplicates ++ [⟨normalize_line raw, f0, ⟨fn, i⟩⟩]
        | none => st.duplicates := by
  by_cases h : (normalize_line raw).length < 15
  · simp [scanLine, h]
  · cases hd : dictGet (normalize_line raw) st.index with
    | some f0 =>
      by_cases hs : (staleKeywords.any fun kw => substrOf kw (normalize_line raw)) = true
      · simp [scanLine, h, hd, hs]
      · simp [scanLine, h, hd, hs]
    | none =>
      by_cases hs : (staleKeywords.any fun kw => substrOf kw (normalize_line raw)) = true
      · simp [scanLine, h, hd, hs]
      · simp [scanLine, h, hd, hs]

theorem scanLine_stale (fn : PyStr) (i : Nat) (raw : PyStr) (st : ScanState) :
    (scanLine fn i raw st).stale =
      if (normalize_line raw).length < 15 then st.stale
      else if staleKeywords.any (fun kw => substrOf kw (normalize_line raw)) then
        st.stale ++ [⟨fn, i, pyStrip raw⟩]
      else st.stale := by
  by_cases h : (normalize_line raw).length < 15
  · simp [scanLine, h]
  · cases hd : dictGet (normalize_line raw) st.index with
    | some f0 =>
      by_cases hs : (staleKeywords.any fun kw => substrOf kw (normalize_line raw)) = true
      · simp [scanLine, h, hd, hs]
      · simp [scanLine, h, hd, hs]
    | none =>
      by_cases hs : (staleKeywords.any fun kw => substrOf kw (normalize_line raw)) = true
      · simp [scanLine, h, hd, hs]
      · simp [scanLine, h, hd, hs]

/-! Dict lookup helper lemmas. -/

theorem dictGet_append (k : PyStr) (l1 l2 : List (PyStr × Loc)) :
    dictGet k (l1 ++ l2) =
      match dictGet k l1 with
      | some v => some v
      | none => dictGet k l2 := by
  induction l1 with
  | nil => rfl
  | cons p l1' ih =>
    by_cases h : p.1 = k
    · simp [dictGet, h]
    · simpa [dictGet, h] using ih

theorem dictGet_single_ne (k n : PyStr) (v : Loc) (h : n ≠ k) :
    dictGet k [(n, v)] = none := by
  simp [dictGet, h]

theorem dictGet_single_eq (k : PyStr) (v : Loc) :
    dictGet k [(k, v)] = some v := by
  simp [dictGet]

theorem scanEntry_def (st : ScanState) (e : PyStr × Nat × PyStr) :
    scanEntry st e = scanLine e.1 e.2.1 e.2.2 st := rfl

/-- All occurrences, in processing order, of the normalized key `k`
among a list of entries. -/
def kOccsE (k : PyStr) (es : List (PyStr × Nat × PyStr)) : List Loc :=
  es.filterMap
    (fun e => if normalize_line e.2.2 = k then some (⟨e.1, e.2.1⟩ : Loc) else none)

/-- All occurrences of the normalized key `k` in the corpus. -/
def kOccs (k : PyStr) (files : List (PyStr × PyStr)) : List Loc :=
  kOccsE k (corpusEntries files)

theorem foldl_dup_spec (k : PyStr) (hk : 15 ≤ k.length) :
    ∀ (es : List (PyStr × Nat × PyStr)) (st : ScanState),
      ((es.foldl scanEntry st).duplicates.filter (fun f => decide (f.line = k)) =
        st.duplicates.filter (fun f => decide (f.line = k)) ++
          (match dictGet k st.index with
           | some f0 => (kOccsE k es).map (fun loc => ⟨k, f0, loc⟩)
           | none =>
             match kOccsE k es with
             | [] => []
             | l0 :: rest => rest.map (fun loc => ⟨k, l0, loc⟩))) ∧
      dictGet k (es.foldl scanEntry st).index =
        (match dictGet k st.index with
         | some f0 => some f0
         | none => (kOccsE k es).head?) := by
  intro es
  induction es with
  | nil =>
    intro st
    constructor
    · cases hd : dictGet k st.index <;> simp [kOccsE]
    · cases hd : dictGet k st.index <;> simp [kOccsE, hd]
  | cons e es ih =>
    intro st
    rw [List.foldl_cons]
    by_cases hn : normalize_line e.2.2 = k
    · have hlen : ¬ (normalize_line e.2.2).length < 15 := by rw [hn]; omega
      have hocc : kOccsE k (e :: es) = (⟨e.1, e.2.1⟩ : Loc) :: kOccsE k es := by
        simp [kOccsE, hn]
      cases hd : dictGet k st.index with
      | some f0 =>
        have hdup : (scanEntry st e).duplicates =
            st.duplicates ++ [⟨k, f0, ⟨e.1, e.2.1⟩⟩] := by
          rw [scanEntry_def, scanLine_duplicates, hn, if_neg (by omega : ¬ k.length < 15), hd]
        have hidx : (scanEntry st e).index = st.index := by
          rw [scanEntry_def, scanLine_index, hn, if_neg (by omega : ¬ k.length < 15), hd]
        obtain ⟨ih1, ih2⟩ := ih (scanEntry st e)
        rw [hidx, hd] at ih1 ih2
        constructor
        · rw [ih1, hdup, hocc, List.filter_append]
          simp [List.append_assoc]
        · rw [ih2]
      | none =>
        have hdup : (scanEntry st e).duplicates = st.duplicates := by
          rw [scanEntry_def, scanLine_duplicates, hn, if_neg (by omega : ¬ k.length < 15), hd]
        have hidx : (scanEntry st e).index =
            st.index ++ [(k, ⟨e.1, e.2.1⟩)] := by
          rw [scanEntry_def, scanLine_index, hn, if_neg (by omega : ¬ k.length < 15), hd]
        have hget : dictGet k (scanEntry st e).index = some ⟨e.1, e.2.1⟩ := by
          rw [hidx, dictGet_append, hd, dictGet_single_eq]
        obtain ⟨ih1, ih2⟩ := ih (scanEntry st e)
        rw [hget] at ih1 ih2
        rw [hdup] at ih1
        constructor
        · rw [ih1, hocc]
        · rw [ih2, hocc]
          rfl
    · have hocc : kOccsE k (e :: es) = kOccsE k es := by simp [kOccsE, hn]
      have hdupf : (scanEntry st e).duplicates.filter (fun f => decide (f.line = k)) =
          st.duplicates.filter (fun f => decide (f.line = k)) := by
        rw [scanEntry_def, scanLine_duplicates]
        by_cases h : (normalize_line e.2.2).length < 15
        · rw [if_pos h]
        · rw [if_neg h]
          cases hd : dictGet (normalize_line e.2.2) st.index with
          | some f0 => simp [List.filter_append, hn]
          | none => rfl
      have hgetk : dictGet k (scanEntry st e).index = dictGet k st.index := by
        rw [scanEntry_def, scanLine_index]
        by_cases h : (normalize_line e.2.2).length < 15
        · rw [if_pos h]
        · rw [if_neg h]
          cases hd : dictGet (normalize_line e.2.2) st.index with
          | some f0 => rfl
          | none =>
            rw [dictGet_append, dictGet_single_ne k _ _ hn]
            cases dictGet k st.index <;> rfl
      obtain ⟨ih1, ih2⟩ := ih (scanEntry st e)
      rw [hgetk, hdupf] at ih1
      rw [hgetk] at ih2
      constructor
      · rw [ih1, hocc]
      · rw [ih2, hocc]

/-- C4: if a normalized line `k` of length ≥ 15 occurs at locations
`l0 :: rest` (N = 1 + rest.length occurrences in Collector/line order,
across any documents), `scan` emits exactly N − 1 DuplicateFindings for
`k`, every one recording the true first occurrence `l0` as "first" —
the mapping entry is never updated by later occurrences. -/
theorem scan_duplicates_first_attribution :
    ∀ (files : List (PyStr × PyStr)) (k : PyStr) (l0 : Loc) (rest : List Loc),
      15 ≤ k.length →
      kOccs k files = l0 :: rest →
      (scan files).1.filter (fun f => decide (f.line = k)) =
          rest.map (fun loc => ⟨k, l0, loc⟩) ∧
      ((scan files).1.filter (fun f => decide (f.line = k))).length =
          (kOccs k files).length - 1 ∧
      (∀ f ∈ (scan files).1.filter (fun f => decide (f.line = k)), f.first = l0) := by
  intro files k l0 rest hk hocc
  have h := (foldl_dup_spec k hk (corpusEntries files) ⟨[], [], []⟩).1
  have hscan : (scan files).1 =
      ((corpusEntries files).foldl scanEntry ⟨[], [], []⟩).duplicates := by
    show (scanPass1 files).duplicates = _
    rw [scanPass1_eq]
  have h' : (scan files).1.filter (fun f => decide (f.line = k)) =
      match kOccs k files with
      | [] => []
      | l0' :: rest' => rest'.map (fun loc => ⟨k, l0', loc⟩) := by
    rw [hscan]
    exact h
  rw [hocc] at h'
  refine ⟨h', ?_, ?_⟩
  · rw [h', List.length_map, hocc]
    simp
  · intro f hf
    rw [h'] at hf
    rcases List.mem_map.mp hf with ⟨loc, _, rfl⟩
    rfl

/-- Witness for `scan_duplicates_first_attribution`: three identical
lines yield two findings, both pointing at occurrence #1. -/
theorem scan_duplicates_first_attribution_witness :
    (scan [(strLit "m.md",
        strLit "this is a repeated statement line\nthis is a repeated statement line\nthis is a repeated statement line")]).1.filter
        (fun f => decide (f.line = strLit "this is a repeated statement line")) =
      [⟨strLit "m.md", 2⟩, ⟨strLit "m.md", 3⟩].map
        (fun loc => ⟨strLit "this is a repeated statement line",
          ⟨strLit "m.md", 1⟩, loc⟩) :=
  (scan_duplicates_first_attribution
    [(strLit "m.md",
      strLit "this is a repeated statement line\nthis is a repeated statement line\nthis is a repeated statement line")]
    (strLit "this is a repeated statement line")
    ⟨strLit "m.md", 1⟩ [⟨strLit "m.md", 2⟩, ⟨strLit "m.md", 3⟩]
    (by decide) (by decide)).1

/-! ## Stale findings as a per-line filterMap (claim C10) -/

/-- The stale contribution of an entry stream: one finding per qualifying
line (normalized length ≥ 15, some stale keyword occurring), carrying the
stripped — not lowercased — raw text. -/
def staleSpec (es : List (PyStr × Nat × PyStr)) : List StaleFinding :=
  es.filterMap (fun e =>
    if 15 ≤ (normalize_line e.2.2).length ∧
        (staleKeywords.any fun kw => substrOf kw (normalize_line e.2.2)) = true then
      some ⟨e.1, e.2.1, pyStrip e.2.2⟩
    else none)

theorem staleSpec_cons (e : PyStr × Nat × PyStr) (es : List (PyStr × Nat × PyStr)) :
    staleSpec (e :: es) =
      (if 15 ≤ (normalize_line e.2.2).length ∧
          (staleKeywords.any fun kw => substrOf kw (normalize_line e.2.2)) = true then
        [(⟨e.1, e.2.1, pyStrip e.2.2⟩ : StaleFinding)]
      else []) ++ staleSpec es := by
  simp only [staleSpec, List.filterMap_cons]
  by_cases hcond : 15 ≤ (normalize_line e.2.2).length ∧
      (staleKeywords.any fun kw => substrOf kw (normalize_line e.2.2)) = true
  · rw [if_pos hcond, if_pos hcond]
    rfl
  · rw [if_neg hcond, if_neg hcond]
    rfl

theorem foldl_stale_spec :
    ∀ (es : List (PyStr × Nat × PyStr)) (st : ScanState),
      (es.foldl scanEntry st).stale = st.stale ++ staleSpec es := by
  intro es
  induction es with
  | nil => intro st; simp [staleSpec]
  | cons e es ih =>
    intro st
    rw [List.foldl_cons, ih, staleSpec_cons, scanEntry_def, scanLine_stale]
    by_cases h : (normalize_line e.2.2).length < 15
    · rw [if_pos h]
      rw [if_neg (fun hc => absurd hc.1 (by omega))]
      rfl
    · rw [if_neg h]
      by_cases hs : (staleKeywords.any fun kw => substrOf kw (normalize_line e.2.2)) = true
      · rw [if_pos hs, if_pos ⟨by omega, hs⟩]
        simp [List.append_assoc]
      · rw [if_neg hs, if_neg (fun hc => hs hc.2)]
        rfl

theorem mem_pyEnumerate_le :
    ∀ (ls : List PyStr) (k : Nat) (p : Nat × PyStr), p ∈ pyEnumerate k ls → k ≤ p.1 := by
  intro ls
  induction ls with
  | nil => intro k p h; rw [pyEnumerate] at h; simp at h
  | cons a t ih =>
    intro k p h
    rw [pyEnumerate] at h
    rcases List.mem_cons.mp h with rfl | h'
    · exact le_refl k
    · exact le_trans (by omega) (ih (k + 1) p h')

theorem staleSpec_doc_filter_line (fn : PyStr) :
    ∀ (ls : List PyStr) (kstart i : Nat) (raw : PyStr),
      (i, raw) ∈ pyEnumerate kstart ls →
      15 ≤ (normalize_line raw).length →
      (staleKeywords.any fun kw => substrOf kw (normalize_line raw)) = true →
      (staleSpec ((pyEnumerate kstart ls).map (fun p => (fn, p.1, p.2)))).filter
          (fun f => decide (f.line = i)) = [⟨fn, i, pyStrip raw⟩] := by
  intro ls
  induction ls with
  | nil =>
    intro kstart i raw hmem
    rw [pyEnumerate] at hmem
    simp at hmem
  | cons a t ih =>
    intro kstart i raw hmem hlen hkw
    rw [pyEnumerate] at hmem
    rw [pyEnumerate, List.map_cons, staleSpec_cons, List.filter_append]
    rcases List.mem_cons.mp hmem with heq | htail
    · obtain ⟨rfl, rfl⟩ : kstart = i ∧ a = raw := by
        constructor
        · exact (congrArg Prod.fst heq).symm
        · exact (congrArg Prod.snd heq).symm
      have htail0 :
          (staleSpec ((pyEnumerate (kstart + 1) t).map (fun p => (fn, p.1, p.2)))).filter
            (fun f => decide (f.line = kstart)) = [] := by
        rw [List.filter_eq_nil_iff]
        intro f hf
        rcases List.mem_filterMap.mp hf with ⟨e, he, hfe⟩
        rcases List.mem_map.mp he with ⟨p, hp, rfl⟩
        have hple := mem_pyEnumerate_le t (kstart + 1) p hp
        split at hfe
        · obtain rfl : (⟨fn, p.1, pyStrip p.2⟩ : StaleFinding) = f :=
            Option.some.inj hfe
          simp only [decide_eq_true_eq]
          omega
        · exact absurd hfe (by simp)
      rw [if_pos ⟨hlen, hkw⟩, htail0]
      simp
    · have hge := mem_pyEnumerate_le t (kstart + 1) (i, raw) htail
      have hhead :
          ((if 15 ≤ (normalize_line a).length ∧
              (staleKeywords.any fun kw => substrOf kw (normalize_line a)) = true then
            [(⟨fn, kstart, pyStrip a⟩ : StaleFinding)]
          else []).filter (fun f => decide (f.line = i))) = [] := by
        split
        · simp only [List.filter_cons, List.filter_nil]
          rw [if_neg (by simp only [decide_eq_true_eq]; omega)]
        · rfl
      rw [hhead, List.nil_append]
      exact ih (kstart + 1) i raw htail hlen hkw

/-- C10: a raw line whose normalized form has length ≥ 15 and contains
two or more distinct stale keywords yields exactly one StaleFinding (not
one per matched keyword), whose text is the raw line stripped of
surrounding whitespace but not lowercased; and in general the stale list
is exactly one finding per qualifying line. -/
theorem scan_stale_one_per_line :
    (∀ files, (scan files).2.1 = staleSpec (corpusEntries files)) ∧
    (∀ (fn txt : PyStr) (i : Nat) (raw : PyStr) (k1 k2 : PyStr),
      (i, raw) ∈ pyEnumerate 1 (splitlines txt) →
      15 ≤ (normalize_line raw).length →
      k1 ∈ staleKeywords → k2 ∈ staleKeywords → k1 ≠ k2 →
      substrOf k1 (normalize_line raw) = true →
      substrOf k2 (normalize_line raw) = true →
      ((scan [(fn, txt)]).2.1).filter (fun f => decide (f.line = i)) =
        [⟨fn, i, pyStrip raw⟩]) := by
  have hchar : ∀ files, (scan files).2.1 = staleSpec (corpusEntries files) := by
    intro files
    show (scanPass1 files).stale = _
    rw [scanPass1_eq, foldl_stale_spec]
    rfl
  refine ⟨hchar, ?_⟩
  intro fn txt i raw k1 k2 hmem hlen hk1 hk2 hne hs1 hs2
  rw [hchar]
  have hcorp : corpusEntries [(fn, txt)] =
      (pyEnumerate 1 (splitlines txt)).map (fun p => (fn, p.1, p.2)) := by
    rw [corpusEntries, corpusEntries, List.append_nil]
    rfl
  rw [hcorp]
  exact staleSpec_doc_filter_line fn (splitlines txt) 1 i raw hmem hlen
    (List.any_eq_true.mpr ⟨k1, hk1, hs1⟩)

/-- Witness for `scan_stale_one_per_line` at a line containing three
distinct stale keywords. -/
theorem scan_stale_one_per_line_witness :
    ((scan [(strLit "notes.md", strLit "TODO and FIXME later in this line")]).2.1).filter
        (fun f => decide (f.line = 1)) =
      [⟨strLit "notes.md", 1, pyStrip (strLit "TODO and FIXME later in this line")⟩] :=
  scan_stale_one_per_line.2 (strLit "notes.md")
    (strLit "TODO and FIXME later in this line") 1
    (strLit "TODO and FIXME later in this line")
    (strLit "todo") (strLit "fixme")
    (by decide) (by decide) (by decide) (by decide) (by decide) (by decide) (by decide)

/-! ## Duplicate count under document reordering (claim C7) -/

/-- The normalized keys of the qualifying (length ≥ 15) entries, in order. -/
def qualKeys (es : List (PyStr × Nat × PyStr)) : List PyStr :=
  es.filterMap (fun e =>
    if 15 ≤ (normalize_line e.2.2).length then some (normalize_line e.2.2) else none)

/-- The set of keys present in the running `line_index`. -/
def indexKeys (st : ScanState) : Finset PyStr := (st.index.map Prod.fst).toFinset

/-- How many of the keys in `ks` (processed left to right) hit a key
already seen. -/
def countDups (seen : Finset PyStr) : List PyStr → Nat
  | [] => 0
  | k :: ks => if k ∈ seen then 1 + countDups seen ks else countDups (insert k seen) ks

theorem dictGet_eq_none_iff (k : PyStr) :
    ∀ l : List (PyStr × Loc), dictGet k l = none ↔ k ∉ l.map Prod.fst := by
  intro l
  induction l with
  | nil => simp [dictGet]
  | cons p l' ih =>
    by_cases h : p.1 = k
    · subst h
      simp [dictGet]
    · rw [List.map_cons, List.mem_cons]
      rw [show dictGet k (p :: l') = dictGet k l' by simp [dictGet, h]]
      rw [ih]
      constructor
      · intro hn hc
        rcases hc with hc | hc
        · exact h hc.symm
        · exact hn hc
      · intro hn
        exact fun hc => hn (Or.inr hc)

theorem foldl_dup_length :
    ∀ (es : List (PyStr × Nat × PyStr)) (st : ScanState),
      ((es.foldl scanEntry st).duplicates).length =
        st.duplicates.length + countDups (indexKeys st) (qualKeys es) := by
  intro es
  induction es with
  | nil => intro st; simp [qualKeys, countDups]
  | cons e es ih =>
    intro st
    rw [List.foldl_cons]
    by_cases h : (normalize_line e.2.2).length < 15
    · have hstep : scanEntry st e = st := by
        rw [scanEntry_def]
        simp [scanLine, h]
      have hqk : qualKeys (e :: es) = qualKeys es := by
        simp [qualKeys, show ¬ 15 ≤ (normalize_line e.2.2).length by omega]
      rw [hstep, hqk]
      exact ih st
    · have hqk : qualKeys (e :: es) = normalize_line e.2.2 :: qualKeys es := by
        simp [qualKeys, show 15 ≤ (normalize_line e.2.2).length by omega]
      cases hd : dictGet (normalize_line e.2.2) st.index with
      | some f0 =>
        have hdup : (scanEntry st e).duplicates =
            st.duplicates ++ [⟨normalize_line e.2.2, f0, ⟨e.1, e.2.1⟩⟩] := by
          rw [scanEntry_def, scanLine_duplicates, if_neg h, hd]
        have hidx : (scanEntry st e).index = st.index := by
          rw [scanEntry_def, scanLine_index, if_neg h, hd]
        have hmem : normalize_line e.2.2 ∈ indexKeys st := by
          by_contra hmm
          rw [indexKeys, List.mem_toFinset] at hmm
          rw [(dictGet_eq_none_iff _ _).mpr hmm] at hd
          cases hd
        have hkeys : indexKeys (scanEntry st e) = indexKeys st := by
          rw [indexKeys, hidx]
          rfl
        rw [ih (scanEntry st e), hdup, hkeys, hqk]
        rw [show countDups (indexKeys st) (normalize_line e.2.2 :: qualKeys es) =
            1 + countDups (indexKeys st) (qualKeys es) by simp [countDups, hmem]]
        rw [List.length_append]
        simp
        omega
      | none =>
        have hdup : (scanEntry st e).duplicates = st.duplicates := by
          rw [scanEntry_def, scanLine_duplicates, if_neg h, hd]
        have hidx : (scanEntry st e).index =
            st.index ++ [(normalize_line e.2.2, ⟨e.1, e.2.1⟩)] := by
          rw [scanEntry_def, scanLine_index, if_neg h, hd]
        have hnmem : normalize_line e.2.2 ∉ indexKeys st := by
          rw [indexKeys, List.mem_toFinset]
          exact (dictGet_eq_none_iff _ _).mp hd
        have hsingle :
            (([(normalize_line e.2.2, (⟨e.1, e.2.1⟩ : Loc))]).map Prod.fst).toFinset =
              ({normalize_line e.2.2} : Finset PyStr) := by simp
        have hkeys : indexKeys (scanEntry st e) =
            insert (normalize_line e.2.2) (indexKeys st) := by
          rw [indexKeys, hidx, List.map_append, List.toFinset_append, hsingle,
            Finset.union_comm, ← Finset.insert_eq]
          rfl
        rw [ih (scanEntry st e), hdup, hkeys, hqk]
        rw [show countDups (indexKeys st) (normalize_line e.2.2 :: qualKeys es) =
            countDups (insert (normalize_line e.2.2) (indexKeys st)) (qualKeys es) by
          simp [countDups, hnmem]]

theorem countDups_closed :
    ∀ (ks : List PyStr) (seen : Finset PyStr),
      countDups seen ks + (ks.toFinset \ seen).card = ks.length := by
  intro ks
  induction ks with
  | nil => intro seen; simp [countDups]
  | cons k ks ih =>
    intro seen
    rw [List.toFinset_cons]
    by_cases h : k ∈ seen
    · rw [show countDups seen (k :: ks) = 1 + countDups seen ks by simp [countDups, h]]
      rw [Finset.insert_sdiff_of_mem _ h]
      have := ih seen
      simp only [List.length_cons]
      omega
    · rw [show countDups seen (k :: ks) = countDups (insert k seen) ks by
        simp [countDups, h]]
      have hsd : insert k ks.toFinset \ seen = insert k (ks.toFinset \ seen) := by
        ext y
        simp only [Finset.mem_sdiff, Finset.mem_insert]
        constructor
        · rintro ⟨hy | hy, hns⟩
          · exact Or.inl hy
          · exact Or.inr ⟨hy, hns⟩
        · rintro (rfl | ⟨hy, hns⟩)
          · exact ⟨Or.inl rfl, h⟩
          · exact ⟨Or.inr hy, hns⟩
      have ihk := ih (insert k seen)
      have hsd2 : ks.toFinset \ insert k seen = (ks.toFinset \ seen).erase k := by
        ext y
        simp only [Finset.mem_sdiff, Finset.mem_erase, Finset.mem_insert]
        constructor
        · rintro ⟨hy, hns⟩
          exact ⟨fun hk => hns (Or.inl hk), hy, fun hs => hns (Or.inr hs)⟩
        · rintro ⟨hyk, hy, hns⟩
          exact ⟨hy, fun hc => hc.elim hyk hns⟩
      rw [hsd2] at ihk
      rw [hsd]
      by_cases hk : k ∈ ks.toFinset \ seen
      · rw [Finset.card_erase_of_mem hk] at ihk
        rw [Finset.insert_eq_self.mpr hk]
        have hpos : 0 < (ks.toFinset \ seen).card := Finset.card_pos.mpr ⟨k, hk⟩
        simp only [List.length_cons]
        omega
      · rw [Finset.erase_eq_of_not_mem hk] at ihk
        rw [Finset.card_insert_of_not_mem hk]
        simp only [List.length_cons]
        omega

theorem scan_dup_total (files : List (PyStr × PyStr)) :
    (scan files).1.length =
      (qualKeys (corpusEntries files)).length -
        (qualKeys (corpusEntries files)).toFinset.card := by
  have hscan : (scan files).1 =
      ((corpusEntries files).foldl scanEntry ⟨[], [], []⟩).duplicates := by
    show (scanPass1 files).duplicates = _
    rw [scanPass1_eq]
  have h := foldl_dup_length (corpusEntries files) ⟨[], [], []⟩
  have hc := countDups_closed (qualKeys (corpusEntries files)) ∅
  rw [Finset.sdiff_empty] at hc
  have h0 : indexKeys ⟨[], [], []⟩ = (∅ : Finset PyStr) := rfl
  rw [hscan, h, h0]
  simp only [List.length_nil, Nat.zero_add]
  omega

theorem corpusEntries_perm {files files' : List (PyStr × PyStr)}
    (p : files.Perm files') : (corpusEntries files).Perm (corpusEntries files') := by
  induction p with
  | nil => exact List.Perm.refl _
  | cons x _ ih =>
    show List.Perm (docEntries x.1 x.2 ++ _) (docEntries x.1 x.2 ++ _)
    exact List.Perm.append_left _ ih
  | swap x y l =>
    show List.Perm (docEntries y.1 y.2 ++ (docEntries x.1 x.2 ++ corpusEntries l))
      (docEntries x.1 x.2 ++ (docEntries y.1 y.2 ++ corpusEntries l))
    rw [← List.append_assoc, ← List.append_assoc]
    exact List.Perm.append_right _ List.perm_append_comm
  | trans _ _ ih1 ih2 => exact ih1.trans ih2

/-- C7: the function scan is deterministic (a pure function of its input), and
permuting the order of documents (texts unchanged) never changes the
total number of DuplicateFindings. -/
theorem scan_dup_count_order_invariant :
    (∀ files : List (PyStr × PyStr), scan files = scan files) ∧
    (∀ files files' : List (PyStr × PyStr), files.Perm files' →
      (scan files).1.length = (scan files').1.length) := by
  refine ⟨fun _ => rfl, ?_⟩
  intro files files' p
  have hp : (qualKeys (corpusEntries files)).Perm (qualKeys (corpusEntries files')) :=
    (corpusEntries_perm p).filterMap _
  have hfin : (qualKeys (corpusEntries files)).toFinset =
      (qualKeys (corpusEntries files')).toFinset := by
    ext a
    simp only [List.mem_toFinset]
    exact hp.mem_iff
  rw [scan_dup_total, scan_dup_total, hp.length_eq, hfin]

/-- Witness for `scan_dup_count_order_invariant` on a concrete reordering. -/
theorem scan_dup_count_order_invariant_witness :
    (scan [(strLit "a.md", strLit "a long duplicated statement here"),
           (strLit "b.md", strLit "a long duplicated statement here")]).1.length =
    (scan [(strLit "b.md", strLit "a long duplicated statement here"),
           (strLit "a.md", strLit "a long duplicated statement here")]).1.length :=
  scan_dup_count_order_invariant.2
    [(strLit "a.md", strLit "a long duplicated statement here"),
     (strLit "b.md", strLit "a long duplicated statement here")]
    [(strLit "b.md", strLit "a long duplicated statement here"),
     (strLit "a.md", strLit "a long duplicated statement here")]
    (by decide)

/-! ## Contradiction pass (claim C2) -/

/-- C2 counterexample: "always is never" normalizes to itself with length
exactly 15 and contains both tokens, yet the contradiction pass (which
requires normalized length STRICTLY greater than 15, `audit.py` line 78)
emits no hint — so a line of normalized length exactly 15 does NOT
participate in contradiction detection. -/
theorem contra_len15_excluded :
    (normalize_line (strLit "always is never")).length = 15 ∧
    substrOf (strLit "always") (normalize_line (strLit "always is never")) = true ∧
    substrOf (strLit "never") (normalize_line (strLit "always is never")) = true ∧
    (scan [(strLit "doc.md", strLit "always is never")]).2.2 = [] := by
  refine ⟨by decide, by decide, by decide, by decide⟩

/-- Whether a document text triggers a contradiction hint, phrased over
the raw lines: some line of normalized length > 15 contains "always",
and some such line contains "never". -/
def docContra (txt : PyStr) : Bool :=
  ((splitlines txt).any fun raw =>
    decide (15 < (normalize_line raw).length) &&
      substrOf (strLit "always") (normalize_line raw)) &&
  ((splitlines txt).any fun raw =>
    decide (15 < (normalize_line raw).length) &&
      substrOf (strLit "never") (normalize_line raw))

theorem any_map_filter (ls : List PyStr) (p : PyStr → Bool) (q : PyStr → Bool) :
    ((ls.filter p).map normalize_line).any q =
      ls.any (fun raw => p raw && q (normalize_line raw)) := by
  induction ls with
  | nil => rfl
  | cons a t ih =>
    by_cases hp : p a = true
    · simp [List.filter_cons, hp, ih]
    · simp [List.filter_cons, hp, ih]

theorem contraPass_cons (f : PyStr × PyStr) (fs : List (PyStr × PyStr)) :
    contraPass (f :: fs) =
      (if docContra f.2 = true then [(⟨f.1, contraHint⟩ : ContradictionHint)] else [])
        ++ contraPass fs := by
  have hA := any_map_filter (splitlines f.2)
    (fun x => decide (15 < (normalize_line x).length))
    (fun l => substrOf (strLit "always") l)
  have hN := any_map_filter (splitlines f.2)
    (fun x => decide (15 < (normalize_line x).length))
    (fun l => substrOf (strLit "never") l)
  simp only [contraPass, List.filterMap_cons]
  rw [hA, hN]
  by_cases hc : docContra f.2 = true
  · have hc' : ((((splitlines f.2).any fun raw =>
        decide (15 < (normalize_line raw).length) &&
          substrOf (strLit "always") (normalize_line raw))) &&
        (((splitlines f.2).any fun raw =>
          decide (15 < (normalize_line raw).length) &&
            substrOf (strLit "never") (normalize_line raw)))) = true := hc
    rw [if_pos hc', if_pos hc]
    rfl
  · have hc' : ¬ (((((splitlines f.2).any fun raw =>
        decide (15 < (normalize_line raw).length) &&
          substrOf (strLit "always") (normalize_line raw))) &&
        (((splitlines f.2).any fun raw =>
          decide (15 < (normalize_line raw).length) &&
            substrOf (strLit "never") (normalize_line raw)))) = true) := hc
    rw [if_neg hc', if_neg hc]
    rfl

/-- C2 amended: a line participates in the contradiction pass only when
its normalized length is STRICTLY greater than 15 (≥ 16); per document,
exactly one ContradictionHint is emitted iff some such line contains
"always" and some such line contains "never" — the hints list is exactly
one hint per passing document, in corpus order. -/
theorem contra_hints_strict_floor :
    (∀ files : List (PyStr × PyStr),
      (scan files).2.2 = (files.filter (fun f => docContra f.2)).map
        (fun f => (⟨f.1, contraHint⟩ : ContradictionHint))) ∧
    (∀ txt : PyStr, docContra txt = true ↔
      ((∃ raw ∈ splitlines txt, 15 < (normalize_line raw).length ∧
          substrOf (strLit "always") (normalize_line raw) = true) ∧
        (∃ raw ∈ splitlines txt, 15 < (normalize_line raw).length ∧
          substrOf (strLit "never") (normalize_line raw) = true))) := by
  constructor
  · intro files
    show contraPass files = _
    induction files with
    | nil => rfl
    | cons f fs ih =>
      rw [contraPass_cons, ih]
      simp only [List.filter_cons]
      by_cases hc : docContra f.2 = true
      · rw [if_pos hc, if_pos hc, List.map_cons]
        rfl
      · rw [if_neg hc, if_neg hc, List.nil_append]
  · intro txt
    simp [docContra, List.any_eq_true]
